import Mathlib

/-!
Shallow embedding of `aten/src/ATen/native/Batching.cpp`: the vmap
dimension-bookkeeping core (`_add_batch_dim`, `has_level`,
`remove_existing_batch_dim`, `movedim`, `_remove_batch_dim`).

Tensors are modelled by their shape metadata plus contents viewed as a
function from index lists to element values; a `BatchedTensor` is a plain
payload together with its list of `(level, physicalDim)` tags.  Physical
dimensions and sizes are modelled as `Nat` (the C++ stores them as
non-negative `int64_t`); user-facing dimension arguments that may be
negative (`src`/`dst`/`out_dim`) are `Int`.  Fallible paths return
`Except VmapError`: a `TORCH_INTERNAL_ASSERT` failure is
`.error .internalAssert`, the dimension-normalization range error is
`.error .outOfRange`, and the C++ read of an uninitialized variable
(possible in `remove_existing_batch_dim` when no tag carries the requested
level and the tag set has size other than one) is
`.error .uninitializedRead`.

Collaborators that live in headers outside the repository snapshot
(`BatchedTensorImpl.h`, `WrapDimUtils.h`, the tensor runtime's
`expand`/`permute`) are modelled from the spec; their doc comments say so.
-/

namespace Batching

/-- A batch-dimension tag (`BatchDim` of BatchedTensorImpl.h): `level` is the
vmap nesting level, `dim` the physical dimension of the payload carrying this
level. -/
structure BatchDim where
  level : Int
  dim : Nat
  deriving DecidableEq, Repr

/-- A plain (untagged) tensor: its physical sizes together with its contents,
viewed as a function from index lists to element values. -/
structure PlainT where
  sizes : List Nat
  data : List Nat → Int

/-- A tensor value as seen by Batching.cpp: either a regular tensor or a
BatchedTensor wrapping a regular payload together with its batch-dim tags. -/
inductive Tensor where
  | plain (t : PlainT)
  | batched (value : PlainT) (bdims : List BatchDim)

/-- Outcomes of the fallible paths: a TORCH_INTERNAL_ASSERT failure, the
dimension-normalization range error, and the read of an uninitialized
variable (undefined behavior in the C++). -/
inductive VmapError where
  | internalAssert
  | outOfRange
  | uninitializedRead
  deriving DecidableEq, Repr

/-- Modelled from the spec: `maybeGetBatched` of BatchedTensorImpl.h, the
level-registry accessor. Returns the payload and tag set of a tagged array,
and `none` for a plain array. -/
def maybeGetBatched : Tensor → Option (PlainT × List BatchDim)
  | .plain _ => none
  | .batched v bs => some (v, bs)

/-- Modelled from the spec: the physical positions of the logical (non-batch)
dimensions of a payload of physical rank `pr` under tags `bs`, in increasing
order. -/
def logicalPhysDims (pr : Nat) (bs : List BatchDim) : List Nat :=
  (List.range pr).filter (fun i => !(bs.any (fun b => b.dim == i)))

/-- Modelled from the spec: the array runtime's shape query (`Tensor::sizes`).
For a tagged array it reports the logical shape: the payload's sizes with the
tagged batch dimensions hidden. -/
def Tensor.sizes : Tensor → List Nat
  | .plain t => t.sizes
  | .batched v bs => (logicalPhysDims v.sizes.length bs).map (fun i => v.sizes.getD i 0)

/-- Modelled from the spec: `Tensor::dim`, the logical rank. -/
def Tensor.dim (t : Tensor) : Nat := t.sizes.length

/-- Modelled from the spec: `makeBatched(payload, bdims)` of
BatchedTensorImpl.h. Wraps the payload with a tag set; the data model has no
zero-length tag-set wrapper, so an empty set yields the plain payload. -/
def makeBatched (v : PlainT) (bs : List BatchDim) : Tensor :=
  if bs.isEmpty then .plain v else .batched v bs

/-- Modelled from the spec (§4.5): `addBatchDim(array, level, physicalDim)` of
BatchedTensorImpl.h. Pure metadata attach: appends one `(level, physicalDim)`
entry to the existing tag set, or creates a fresh one-entry set. -/
def addBatchDim (self : Tensor) (level : Int) (d : Nat) : Tensor :=
  match self with
  | .plain t => .batched t [⟨level, d⟩]
  | .batched v bs => .batched v (bs ++ [⟨level, d⟩])

/-- Batching.cpp `_add_batch_dim`: adds a batch dimension to `self`
out-of-place (note the argument order swap when calling `addBatchDim`). -/
def _add_batch_dim (self : Tensor) (batch_dim : Nat) (level : Int) : Tensor :=
  addBatchDim self level batch_dim

/-- Batching.cpp `has_level`: true iff `self` is batched and some tag carries
`level`. -/
def has_level (self : Tensor) (level : Int) : Bool :=
  match maybeGetBatched self with
  | none => false
  | some (_, bdims) => bdims.any (fun b => b.level == level)

/-- The loop of `remove_existing_batch_dim`: one pass over the tags records the
physical dim of the entry for `level` (the C++ overwrites on each match, so the
last match survives) and pushes every other entry in order. The first
accumulator component starts out `none`, modelling the uninitialized
`newly_exposed_physical_dim`. -/
def removeScan (level : Int) (bdims : List BatchDim) : Option Nat × List BatchDim :=
  bdims.foldl
    (fun acc b => if b.level = level then (some b.dim, acc.2) else (acc.1, acc.2 ++ [b]))
    (none, [])

/-- Batching.cpp `remove_existing_batch_dim`: strips the batch dim carrying
`level`, returning the rewrapped tensor and the logical index at which the
freshly exposed dimension sits among the remaining logical dimensions. -/
def remove_existing_batch_dim (self : Tensor) (level : Int) :
    Except VmapError (Tensor × Int) :=
  match maybeGetBatched self with
  | none => .error .internalAssert
  | some (v, bdims) =>
    if bdims.length = 1 then
      if (bdims.getD 0 ⟨0, 0⟩).level = level then
        .ok (.plain v, ((bdims.getD 0 ⟨0, 0⟩).dim : Int))
      else .error .internalAssert
    else
      match removeScan level bdims with
      | (none, _) => .error .uninitializedRead
      | (some p, new_bdims) =>
        let c := new_bdims.countP (fun b => decide (b.dim < p))
        .ok (makeBatched v new_bdims, (p : Int) - (c : Int))

/-- Modelled from the spec (§6): the collaborator dimension-normalization
utility (`maybe_wrap_dim` of WrapDimUtils.h): maps a possibly-negative index
into `[0, rank)` (negative indices count from the end) and fails with a range
error otherwise. -/
def maybe_wrap_dim (d : Int) (rank : Nat) : Except VmapError Nat :=
  if 0 ≤ d ∧ d < (rank : Int) then .ok d.toNat
  else if -(rank : Int) ≤ d ∧ d < 0 then .ok (d + (rank : Int)).toNat
  else .error .outOfRange

/-- Modelled from the spec: the array runtime's generic permute primitive on a
plain tensor. Dimension `perm[k]` of the input becomes dimension `k` of the
result, in sizes and in contents. -/
def permutePlain (t : PlainT) (perm : List Nat) : PlainT :=
  { sizes := perm.map (fun d => t.sizes.getD d 0),
    data := fun idx =>
      t.data ((List.range t.sizes.length).map (fun d => idx.getD (perm.indexOf d) 0)) }

/-- Modelled from the spec: `Tensor::permute` over logical dimensions. For a
plain tensor this is the runtime primitive itself. For a tagged tensor the
op-specific batching rule is outside this core (spec §1); following the
surrounding transform's convention we model it as moving the batch dims to the
physical front (levels kept in tag order) and permuting the logical dims by
`perm`. No theorem below depends on the tagged branch's internals. -/
def Tensor.permute : Tensor → List Nat → Tensor
  | .plain t, perm => .plain (permutePlain t perm)
  | .batched v bs, perm =>
    let lp := logicalPhysDims v.sizes.length bs
    let physPerm := bs.map (fun b => b.dim) ++ perm.map (fun k => lp.getD k 0)
    .batched (permutePlain v physPerm) (bs.enum.map (fun ib => ⟨ib.2.level, ib.1⟩))

/-- The permutation Batching.cpp `movedim` builds: every dim except `src` in
original order, then `src` inserted at position `dst` of that reduced list. -/
def movedimPerm (rank src dst : Nat) : List Nat :=
  ((List.range rank).filter (fun d => d != src)).insertIdx dst src

/-- Batching.cpp `movedim`: normalize `src` and `dst` against the logical
rank, return the input unchanged if they agree, else permute by
`movedimPerm`. -/
def movedim (self : Tensor) (src dst : Int) : Except VmapError Tensor :=
  match maybe_wrap_dim src (Tensor.dim self) with
  | .error e => .error e
  | .ok s =>
    match maybe_wrap_dim dst (Tensor.dim self) with
    | .error e => .error e
    | .ok d =>
      if s = d then .ok self
      else .ok (self.permute (movedimPerm (Tensor.dim self) s d))

/-- Modelled from the spec (§4.4): the array runtime's broadcast primitive
(`self.expand(expanded_sizes)`) as used by the Synthesizer, where
`expanded_sizes` is the logical shape with `batch_size` inserted at `out_dim`:
stride-0 broadcast, so the value at an index is the input's value at that index
with the `out_dim` coordinate dropped. For a tagged tensor (whose op-specific
batching rule is outside this core) the payload is expanded at the matching
physical position and tags at or beyond it shift by one. -/
def expandInsert (self : Tensor) (batch_size : Nat) (out_dim : Nat) : Tensor :=
  match self with
  | .plain t =>
    .plain { sizes := t.sizes.insertIdx out_dim batch_size,
             data := fun idx => t.data (idx.eraseIdx out_dim) }
  | .batched v bs =>
    let q := (logicalPhysDims v.sizes.length bs).getD out_dim v.sizes.length
    .batched { sizes := v.sizes.insertIdx q batch_size,
               data := fun idx => v.data (idx.eraseIdx q) }
      (bs.map (fun b => if q ≤ b.dim then ⟨b.level, b.dim + 1⟩ else b))

/-- Batching.cpp `_remove_batch_dim`: if `self` does not carry `level`,
broadcast a synthesized dimension of size `batch_size` in at `out_dim`
(the C++ uses `out_dim` directly as the insertion offset, well-defined only
for `0 ≤ out_dim ≤ logical rank`, hence the `toNat`); otherwise strip the
existing batch dim and move the newly exposed logical dim to `out_dim`. -/
def _remove_batch_dim (self : Tensor) (level : Int) (batch_size : Nat)
    (out_dim : Int) : Except VmapError Tensor :=
  if has_level self level = false then
    .ok (expandInsert self batch_size out_dim.toNat)
  else
    match remove_existing_batch_dim self level with
    | .error e => .error e
    | .ok r => movedim r.1 r.2 out_dim

/-! Helper lemmas -/

/-- The loop accumulator law: one pass produces the last matching tag's dim and
the other tags in order. -/
theorem removeScan_foldl (level : Int) (bs : List BatchDim) (o : Option Nat)
    (l : List BatchDim) :
    bs.foldl
      (fun acc b => if b.level = level then (some b.dim, acc.2) else (acc.1, acc.2 ++ [b]))
      (o, l)
      = ((bs.filter (fun b => b.level == level)).foldl (fun _ b => some b.dim) o,
         l ++ bs.filter (fun b => !(b.level == level))) := by
  induction bs generalizing o l with
  | nil => simp
  | cons b bs ih =>
    by_cases hb : b.level = level
    · simp [List.filter_cons, hb, ih]
    · simp [List.filter_cons, hb, ih]

/-- `removeScan` in terms of `filter`. -/
theorem removeScan_eq (level : Int) (bs : List BatchDim) :
    removeScan level bs
      = ((bs.filter (fun b => b.level == level)).foldl (fun _ b => some b.dim) none,
         bs.filter (fun b => !(b.level == level))) := by
  simpa [removeScan] using removeScan_foldl level bs none []

/-- With distinct levels, the tags matching a present level form a singleton. -/
theorem filter_level_singleton (bs : List BatchDim) (L : Int) (p : Nat)
    (hnd : (bs.map BatchDim.level).Nodup) (hm : (⟨L, p⟩ : BatchDim) ∈ bs) :
    bs.filter (fun b => b.level == L) = [⟨L, p⟩] := by
  induction bs with
  | nil => cases hm
  | cons b bs ih =>
    rw [List.map_cons, List.nodup_cons] at hnd
    rcases List.mem_cons.mp hm with h | h
    · subst h
      have hnil : bs.filter (fun b => b.level == L) = [] := by
        rw [List.filter_eq_nil_iff]
        intro x hx hxl
        have hx2 : x.level = L := by simpa using hxl
        refine hnd.1 ?_
        rw [show BatchDim.level ⟨L, p⟩ = L from rfl, ← hx2]
        exact List.mem_map_of_mem _ hx
      simp [List.filter_cons, hnil]
    · have hbl2 : ¬ b.level = L := by
        intro hbl
        refine hnd.1 ?_
        rw [hbl]
        exact List.mem_map.mpr ⟨⟨L, p⟩, h, rfl⟩
      have hrest := ih hnd.2 h
      simp [List.filter_cons, hbl2, hrest]

/-- When no tag carries the level, the scan leaves the exposed dim
uninitialized. -/
theorem removeScan_fst_none (level : Int) (bs : List BatchDim)
    (h : bs.filter (fun b => b.level == level) = []) :
    (removeScan level bs).1 = none := by
  rw [removeScan_eq, h]
  rfl

/-- With distinct levels and a present level, the scan exposes that level's
physical dim. -/
theorem removeScan_fst_some (bs : List BatchDim) (L : Int) (p : Nat)
    (hnd : (bs.map BatchDim.level).Nodup) (hm : (⟨L, p⟩ : BatchDim) ∈ bs) :
    (removeScan L bs).1 = some p := by
  rw [removeScan_eq, filter_level_singleton bs L p hnd hm]
  rfl


/-! Claim theorems -/

/-- C3: for every plain (untagged) array `A`, every level `L`, and every
physical position `p` in `[0, rank(A)]`, `removeExistingBatchDim(addBatchDim(A,
L, p), L)` returns the pair `(A, p)`: the original array unchanged and a
logical dimension equal to the insertion position. -/
theorem C3_add_remove_round_trip (t : PlainT) (L : Int) (p : Nat)
    (_hp : p ≤ t.sizes.length) :
    remove_existing_batch_dim (addBatchDim (.plain t) L p) L
      = .ok (.plain t, (p : Int)) := by
  simp [addBatchDim, remove_existing_batch_dim, maybeGetBatched]

/-- Witness for C3 at a concrete plain array of rank 2 and position 1. -/
theorem C3_add_remove_round_trip_witness :
    remove_existing_batch_dim (addBatchDim (.plain ⟨[2, 3], fun _ => 0⟩) 4 1) 4
      = .ok (.plain ⟨[2, 3], fun _ => 0⟩, 1) :=
  C3_add_remove_round_trip ⟨[2, 3], fun _ => 0⟩ 4 1 (by decide)

/-- C6: whenever `src` and `dst` normalize to the same index against the
array's logical rank (negative indices included), `movedim` returns the input
array unchanged; in particular `movedim(A, k, k)` is the identity for every
valid `k`. -/
theorem C6_movedim_identity (A : Tensor) (src dst : Int) (k : Nat)
    (hs : maybe_wrap_dim src (Tensor.dim A) = .ok k)
    (hd : maybe_wrap_dim dst (Tensor.dim A) = .ok k) :
    movedim A src dst = .ok A := by
  simp [movedim, hs, hd]

/-- Witness for C6: `src = -1` and `dst = 1` both normalize to 1 on a rank-2
array. -/
theorem C6_movedim_identity_witness :
    movedim (.plain ⟨[2, 3], fun _ => 0⟩) (-1) 1 = .ok (.plain ⟨[2, 3], fun _ => 0⟩) :=
  C6_movedim_identity (.plain ⟨[2, 3], fun _ => 0⟩) (-1) 1 1 rfl rfl

/-- C2: `_remove_batch_dim` dispatches on `has_level`: without the level it
returns the synthesized broadcast of `A` with a new size-`n` dimension at
`outDim`; with the level it returns `movedim` applied to the pair produced by
`remove_existing_batch_dim`, moving the newly exposed logical dim to
`outDim`. -/
theorem C2_remove_batch_dim_dispatch (A : Tensor) (L : Int) (n : Nat) (d : Int) :
    (has_level A L = false →
       _remove_batch_dim A L n d = .ok (expandInsert A n d.toNat))
    ∧ (∀ t e, has_level A L = true → remove_existing_batch_dim A L = .ok (t, e) →
       _remove_batch_dim A L n d = movedim t e d) := by
  constructor
  · intro h
    simp [_remove_batch_dim, h]
  · intro t e h hr
    simp [_remove_batch_dim, h, hr]

/-- Witness for C2: the synthesize branch on a plain tensor and the
remove-and-move branch on a two-tag tensor carrying the level. -/
theorem C2_remove_batch_dim_dispatch_witness :
    _remove_batch_dim (.plain ⟨[3, 5], fun _ => 0⟩) 0 7 1
      = .ok (expandInsert (.plain ⟨[3, 5], fun _ => 0⟩) 7 1)
    ∧ _remove_batch_dim (.batched ⟨[2, 3, 5], fun _ => 0⟩ [⟨0, 1⟩, ⟨1, 3⟩]) 1 3 0
      = movedim (.batched ⟨[2, 3, 5], fun _ => 0⟩ [⟨0, 1⟩]) 2 0 :=
  ⟨(C2_remove_batch_dim_dispatch (.plain ⟨[3, 5], fun _ => 0⟩) 0 7 1).1 rfl,
   (C2_remove_batch_dim_dispatch (.batched ⟨[2, 3, 5], fun _ => 0⟩ [⟨0, 1⟩, ⟨1, 3⟩]) 1 3 0).2
     (.batched ⟨[2, 3, 5], fun _ => 0⟩ [⟨0, 1⟩]) 2 rfl rfl⟩

/-- C7 counterexample: with two tags neither carrying the requested level,
`remove_existing_batch_dim` does not fail with the internal-invariant error;
the C++ silently reads an uninitialized variable there (modelled as
`.error .uninitializedRead`). -/
theorem C7_counterexample :
    has_level (.batched ⟨[2, 3], fun _ => 0⟩ [⟨0, 0⟩, ⟨2, 1⟩]) 5 = false
    ∧ remove_existing_batch_dim (.batched ⟨[2, 3], fun _ => 0⟩ [⟨0, 0⟩, ⟨2, 1⟩]) 5
        ≠ .error .internalAssert := by
  constructor
  · rfl
  · rw [show remove_existing_batch_dim
        (.batched ⟨[2, 3], fun _ => 0⟩ [⟨0, 0⟩, ⟨2, 1⟩]) 5
        = .error .uninitializedRead from rfl]
    intro h
    exact VmapError.noConfusion (Except.error.inj h)

/-- C7 amended: calling `remove_existing_batch_dim` with an absent level fails
fast with the internal-invariant error exactly when the array is untagged or
its tag set has exactly one entry; with any other tag-set size the code
performs no check and instead reads an uninitialized variable (undefined
behavior). -/
theorem C7_fail_fast_amended (A : Tensor) (L : Int) (h : has_level A L = false) :
    (maybeGetBatched A = none →
        remove_existing_batch_dim A L = .error .internalAssert)
    ∧ (∀ v b, A = .batched v [b] →
        remove_existing_batch_dim A L = .error .internalAssert)
    ∧ (∀ v bs, A = .batched v bs → bs.length ≠ 1 →
        remove_existing_batch_dim A L = .error .uninitializedRead) := by
  refine ⟨?_, ?_, ?_⟩
  · intro hn
    simp [remove_existing_batch_dim, hn]
  · rintro v b rfl
    have hb : ¬ b.level = L := by
      simpa [has_level, maybeGetBatched] using h
    simp [remove_existing_batch_dim, maybeGetBatched, hb]
  · rintro v bs rfl hlen
    simp only [has_level, maybeGetBatched] at h
    rw [List.any_eq_false] at h
    have hfil : bs.filter (fun b => b.level == L) = [] :=
      List.filter_eq_nil_iff.mpr h
    have hn := removeScan_fst_none L bs hfil
    cases hsc : removeScan L bs with
    | mk o l =>
      rw [hsc] at hn
      simp only at hn
      subst hn
      simp [remove_existing_batch_dim, maybeGetBatched, hlen, hsc]

/-- Witness for C7's amended statement: an untagged array and a mismatched
single-entry tag set fail fast; a two-entry tag set without the level hits the
uninitialized read instead. -/
theorem C7_fail_fast_amended_witness :
    remove_existing_batch_dim (.plain ⟨[2], fun _ => 0⟩) 0 = .error .internalAssert
    ∧ remove_existing_batch_dim (.batched ⟨[2, 3], fun _ => 0⟩ [⟨1, 0⟩]) 0
        = .error .internalAssert
    ∧ remove_existing_batch_dim (.batched ⟨[2, 3], fun _ => 0⟩ [⟨0, 0⟩, ⟨2, 1⟩]) 5
        = .error .uninitializedRead :=
  ⟨(C7_fail_fast_amended (.plain ⟨[2], fun _ => 0⟩) 0 rfl).1 rfl,
   (C7_fail_fast_amended (.batched ⟨[2, 3], fun _ => 0⟩ [⟨1, 0⟩]) 0 rfl).2.1
     ⟨[2, 3], fun _ => 0⟩ ⟨1, 0⟩ rfl,
   (C7_fail_fast_amended (.batched ⟨[2, 3], fun _ => 0⟩ [⟨0, 0⟩, ⟨2, 1⟩]) 5 rfl).2.2
     ⟨[2, 3], fun _ => 0⟩ [⟨0, 0⟩, ⟨2, 1⟩] rfl (by decide)⟩


/-- With distinct levels and a present level, removing its tag drops exactly
one entry. -/
theorem survivors_length (bs : List BatchDim) (L : Int) (p : Nat)
    (hnd : (bs.map BatchDim.level).Nodup) (hm : (⟨L, p⟩ : BatchDim) ∈ bs) :
    (bs.filter (fun b => !(b.level == L))).length = bs.length - 1 := by
  have h1 : (bs.filter (fun b => b.level == L)).length = 1 := by
    rw [filter_level_singleton bs L p hnd hm]
    rfl
  have h2 := List.length_eq_countP_add_countP (fun b => b.level == L) bs
  simp only [List.countP_eq_length_filter, decide_not, Bool.decide_coe] at h2
  omega

/-- C1: on a tag set with at least two entries (distinct levels) containing an
entry for level `L` at physical dim `p`, `remove_existing_batch_dim` returns
logical dim `p - c` where `c` counts the surviving entries whose physical dim
is strictly below `p`. -/
theorem C1_logical_dim_remap (v : PlainT) (bs : List BatchDim) (L : Int) (p : Nat)
    (hlen : 2 ≤ bs.length) (hnd : (bs.map BatchDim.level).Nodup)
    (hm : (⟨L, p⟩ : BatchDim) ∈ bs) :
    remove_existing_batch_dim (.batched v bs) L
      = .ok (makeBatched v (bs.filter (fun b => !(b.level == L))),
             (p : Int) - ((bs.filter (fun b => !(b.level == L))).countP
                 (fun b => decide (b.dim < p)) : Int)) := by
  have h1 : bs.length ≠ 1 := by omega
  have hsc := removeScan_eq L bs
  rw [filter_level_singleton bs L p hnd hm] at hsc
  simp only [List.foldl_cons, List.foldl_nil] at hsc
  simp [remove_existing_batch_dim, maybeGetBatched, h1, hsc]

/-- Witness for C1: tags at physical dims {1, 3} for levels {0, 1}; removing
level 1 exposes logical dim 2. -/
theorem C1_logical_dim_remap_witness :
    remove_existing_batch_dim (.batched ⟨[2, 3, 5], fun _ => 0⟩ [⟨0, 1⟩, ⟨1, 3⟩]) 1
      = .ok (.batched ⟨[2, 3, 5], fun _ => 0⟩ [⟨0, 1⟩], 2) := by
  have h := C1_logical_dim_remap ⟨[2, 3, 5], fun _ => 0⟩ [⟨0, 1⟩, ⟨1, 3⟩] 1 3
      (by decide) (by decide) (by decide)
  rw [h]
  rfl

/-- C8: on a tag set with at least two entries containing level `L`, the
returned tensor wraps the very same payload, and the surviving tag entries are
exactly the original entries whose level differs from `L`, with their
`(level, physicalDim)` values untouched. -/
theorem C8_rewrap_frame (v : PlainT) (bs : List BatchDim) (L : Int) (p : Nat)
    (hlen : 2 ≤ bs.length) (hnd : (bs.map BatchDim.level).Nodup)
    (hm : (⟨L, p⟩ : BatchDim) ∈ bs) :
    ∃ d : Int,
      remove_existing_batch_dim (.batched v bs) L
        = .ok (.batched v (bs.filter (fun b => !(b.level == L))), d) := by
  have h1 : bs.length ≠ 1 := by omega
  have hsc := removeScan_eq L bs
  rw [filter_level_singleton bs L p hnd hm] at hsc
  simp only [List.foldl_cons, List.foldl_nil] at hsc
  have hslen := survivors_length bs L p hnd hm
  have hne : (bs.filter (fun b => !(b.level == L))).isEmpty = false := by
    rw [List.isEmpty_eq_false]
    intro hcon
    rw [hcon] at hslen
    simp at hslen
    omega
  refine ⟨(p : Int) - ((bs.filter (fun b => !(b.level == L))).countP
      (fun b => decide (b.dim < p)) : Int), ?_⟩
  simp [remove_existing_batch_dim, maybeGetBatched, h1, hsc, makeBatched, hne]

/-- Witness for C8 at the concrete two-tag tensor. -/
theorem C8_rewrap_frame_witness :
    ∃ d : Int,
      remove_existing_batch_dim (.batched ⟨[2, 3, 5], fun _ => 0⟩ [⟨0, 1⟩, ⟨1, 3⟩]) 1
        = .ok (.batched ⟨[2, 3, 5], fun _ => 0⟩ [⟨0, 1⟩], d) :=
  C8_rewrap_frame ⟨[2, 3, 5], fun _ => 0⟩ [⟨0, 1⟩, ⟨1, 3⟩] 1 3
    (by decide) (by decide) (by decide)

/-- C5: on a plain array lacking every level, `_remove_batch_dim` synthesizes
the batch dimension: the result shape is the input shape with `batchSize`
inserted at `outDim`, and every slice along the new dimension equals the
original array. -/
theorem C5_synthesis_shape (t : PlainT) (L : Int) (n d : Nat)
    (hd : d ≤ t.sizes.length) :
    ∃ r : PlainT,
      _remove_batch_dim (.plain t) L n (d : Int) = .ok (.plain r)
        ∧ r.sizes = t.sizes.insertIdx d n
        ∧ r.sizes.length = t.sizes.length + 1
        ∧ ∀ (k : Nat) (idx : List Nat), r.data (idx.insertIdx d k) = t.data idx := by
  refine ⟨⟨t.sizes.insertIdx d n, fun idx => t.data (idx.eraseIdx d)⟩, ?_, rfl, ?_, ?_⟩
  · simp [_remove_batch_dim, has_level, maybeGetBatched, expandInsert]
  · exact List.length_insertIdx d t.sizes hd
  · intro k idx
    simp [List.eraseIdx_insertIdx]

/-- Witness for C5: logical shape (3,5), batchSize 7, outDim 1 gives shape
(3,7,5) with every slice equal to the original. -/
theorem C5_synthesis_shape_witness :
    ∃ r : PlainT,
      _remove_batch_dim (.plain ⟨[3, 5], fun _ => 0⟩) 0 7 1 = .ok (.plain r)
        ∧ r.sizes = [3, 7, 5]
        ∧ ∀ (k : Nat) (idx : List Nat),
            r.data (idx.insertIdx 1 k) = PlainT.data ⟨[3, 5], fun _ => 0⟩ idx := by
  obtain ⟨r, h1, h2, h3, h4⟩ := C5_synthesis_shape ⟨[3, 5], fun _ => 0⟩ 0 7 1 (by decide)
  refine ⟨r, h1, ?_, h4⟩
  rw [h2]
  rfl

theorem insertIdx_perm_cons (a : Nat) :
    ∀ (n : Nat) (l : List Nat), n ≤ l.length → List.Perm (l.insertIdx n a) (a :: l)
  | 0, l, _ => List.Perm.refl _
  | n + 1, [], h => absurd h (by simp)
  | n + 1, x :: xs, h => by
    rw [List.insertIdx_succ_cons]
    exact ((insertIdx_perm_cons a n xs (Nat.le_of_succ_le_succ h)).cons x).trans
      (List.Perm.swap a x xs)

theorem maybe_wrap_dim_lt (x : Int) (rank : Nat) (s : Nat)
    (h : maybe_wrap_dim x rank = .ok s) : s < rank := by
  unfold maybe_wrap_dim at h
  split_ifs at h with h1 h2
  · injection h with h'
    omega
  · injection h with h'
    omega

theorem map_getD_range (l : List Nat) :
    (List.range l.length).map (fun d => l.getD d 0) = l := by
  apply List.ext_getElem
  · simp
  · intro i h1 h2
    simp [List.getD_eq_getElem?_getD, List.getElem?_eq_getElem, h2]

theorem movedimPerm_perm_range (rank s d : Nat) (hs : s < rank) (hd : d < rank) :
    List.Perm (movedimPerm rank s d) (List.range rank) := by
  have h1 : (List.range rank).filter (fun x => x != s) = (List.range rank).erase s :=
    ((List.nodup_range rank).erase_eq_filter s).symm
  have hlen : ((List.range rank).erase s).length = rank - 1 := by
    rw [List.length_erase_of_mem (List.mem_range.mpr hs), List.length_range]
  have hperm : List.Perm (movedimPerm rank s d) (s :: (List.range rank).erase s) := by
    rw [movedimPerm, h1]
    exact insertIdx_perm_cons s d _ (by omega)
  exact hperm.trans (List.perm_cons_erase (List.mem_range.mpr hs)).symm


/-- C10: for src and dst normalizing into [0, rank) with src distinct from
dst, the index sequence `movedim` hands to the permute primitive is a true
permutation of {0, ..., rank-1}; hence the result keeps the input's rank and
multiset of dimension sizes. -/
theorem C10_true_permutation (t : PlainT) (src dst : Int) (s d : Nat)
    (hs : maybe_wrap_dim src t.sizes.length = .ok s)
    (hd : maybe_wrap_dim dst t.sizes.length = .ok d)
    (hne : s ≠ d) :
    List.Perm (movedimPerm t.sizes.length s d) (List.range t.sizes.length)
    ∧ ∃ r : PlainT,
        movedim (.plain t) src dst = .ok (.plain r)
        ∧ r.sizes.length = t.sizes.length
        ∧ List.Perm r.sizes t.sizes := by
  have hsr := maybe_wrap_dim_lt src t.sizes.length s hs
  have hdr := maybe_wrap_dim_lt dst t.sizes.length d hd
  have hp := movedimPerm_perm_range t.sizes.length s d hsr hdr
  have hmap := hp.map (fun x => t.sizes.getD x 0)
  rw [map_getD_range] at hmap
  refine ⟨hp, permutePlain t (movedimPerm t.sizes.length s d), ?_, hmap.length_eq, hmap⟩
  simp [movedim, Tensor.dim, Tensor.sizes, hs, hd, hne, Tensor.permute]

/-- C4: on a rank-4 array of shape (a,b,c,d), `movedim 0 2` yields shape
(b,c,a,d) and `movedim 3 0` yields shape (d,a,b,c); in general, for valid
normalized src distinct from dst, `movedim` applies the permutation listing
all dims except src in order with src inserted at position dst. -/
theorem C4_movedim_order (t : PlainT) (a b c d : Nat) (src dst : Int) (s k : Nat) :
    (t.sizes = [a, b, c, d] →
       ∃ r₁ r₂ : PlainT,
         movedim (.plain t) 0 2 = .ok (.plain r₁) ∧ r₁.sizes = [b, c, a, d]
         ∧ movedim (.plain t) 3 0 = .ok (.plain r₂) ∧ r₂.sizes = [d, a, b, c])
    ∧ (maybe_wrap_dim src t.sizes.length = .ok s →
       maybe_wrap_dim dst t.sizes.length = .ok k → s ≠ k →
       movedim (.plain t) src dst
         = .ok (.plain (permutePlain t (movedimPerm t.sizes.length s k)))) := by
  constructor
  · intro h4
    have hrank : t.sizes.length = 4 := by rw [h4]; rfl
    have h02 : maybe_wrap_dim 0 4 = .ok 0 := rfl
    have h24 : maybe_wrap_dim 2 4 = .ok 2 := rfl
    have h34 : maybe_wrap_dim 3 4 = .ok 3 := rfl
    have hp1 : movedimPerm 4 0 2 = [1, 2, 0, 3] := rfl
    have hp2 : movedimPerm 4 3 0 = [3, 0, 1, 2] := rfl
    refine ⟨permutePlain t (movedimPerm 4 0 2), permutePlain t (movedimPerm 4 3 0),
      ?_, ?_, ?_, ?_⟩
    · simp [movedim, Tensor.dim, Tensor.sizes, hrank, h02, h24, Tensor.permute]
    · simp [permutePlain, hp1, h4]
    · simp [movedim, Tensor.dim, Tensor.sizes, hrank, h34, h02, Tensor.permute]
    · simp [permutePlain, hp2, h4]
  · intro hs hk hne
    simp [movedim, Tensor.dim, Tensor.sizes, hs, hk, hne, Tensor.permute]

theorem length_le_card_of_nodup (l : List Nat) (s : Finset Nat)
    (hnd : l.Nodup) (h : ∀ x ∈ l, x ∈ s) : l.length ≤ s.card := by
  rw [← List.toFinset_card_of_nodup hnd]
  exact Finset.card_le_card (fun x hx => h x (List.mem_toFinset.mp hx))

theorem logicalPhysDims_length (pr : Nat) (bs : List BatchDim)
    (hnd : (bs.map BatchDim.dim).Nodup) (hlt : ∀ b ∈ bs, b.dim < pr) :
    (logicalPhysDims pr bs).length = pr - bs.length := by
  have hperm : List.Perm ((List.range pr).filter (fun i => bs.any (fun b => b.dim == i)))
      (bs.map BatchDim.dim) := by
    apply List.perm_of_nodup_nodup_toFinset_eq (by exact (List.nodup_range pr).filter _) hnd
    ext x
    simp only [List.mem_toFinset, List.mem_filter, List.mem_range, List.any_eq_true,
      beq_iff_eq, List.mem_map]
    constructor
    · rintro ⟨hx, b, hb, hbd⟩
      exact ⟨b, hb, hbd⟩
    · rintro ⟨b, hb, hbd⟩
      exact ⟨hbd ▸ hlt b hb, b, hb, hbd⟩
  have hlen1 : ((List.range pr).filter (fun i => bs.any (fun b => b.dim == i))).length
      = bs.length := by
    rw [hperm.length_eq, List.length_map]
  have h2 := List.length_eq_countP_add_countP (fun i => bs.any (fun b => b.dim == i))
      (List.range pr)
  simp only [List.countP_eq_length_filter, decide_not, Bool.decide_coe,
    List.length_range] at h2
  rw [logicalPhysDims]
  omega

theorem countP_lt_le (ds : List Nat) (p : Nat) (hnd : ds.Nodup) :
    ds.countP (fun x => decide (x < p)) ≤ p := by
  rw [List.countP_eq_length_filter]
  have h := length_le_card_of_nodup (ds.filter (fun x => decide (x < p))) (Finset.range p)
    (hnd.filter _) ?_
  · simpa using h
  · intro x hx
    rw [Finset.mem_range]
    simpa using (List.mem_filter.mp hx).2

theorem countP_ge_le (ds : List Nat) (p m : Nat) (hnd : ds.Nodup)
    (hlt : ∀ x ∈ ds, x < m) (hne : ∀ x ∈ ds, x ≠ p) :
    ds.length ≤ (m - p - 1) + ds.countP (fun x => decide (x < p)) := by
  have h2 := List.length_eq_countP_add_countP (fun x => decide (x < p)) ds
  have h3 : ds.countP (fun x => !decide (x < p)) ≤ m - p - 1 := by
    rw [List.countP_eq_length_filter]
    have hsub := length_le_card_of_nodup (ds.filter (fun x => !decide (x < p)))
      (Finset.Ico (p + 1) m) (hnd.filter _) ?_
    · simpa [Nat.card_Ico] using hsub
    · intro x hx
      have hm := List.mem_filter.mp hx
      have hge : ¬ x < p := by simpa using hm.2
      have h4 := hlt x hm.1
      have h5 := hne x hm.1
      rw [Finset.mem_Ico]
      omega
  simp only [decide_not, Bool.decide_coe] at h2
  omega


/-- C9: under the data-model invariants (distinct levels, distinct physical
dims inside the payload's rank) with level `L` present, the logical dim
returned by `remove_existing_batch_dim` lies in [0, r-1] for r the logical
rank of the returned tensor (physicalRank - (k-1)), so the later `movedim`
normalization of that index cannot raise a range error. -/
theorem C9_exposed_dim_in_range (v : PlainT) (bs : List BatchDim) (L : Int) (p : Nat)
    (hndl : (bs.map BatchDim.level).Nodup)
    (hndd : (bs.map BatchDim.dim).Nodup)
    (hlt : ∀ b ∈ bs, b.dim < v.sizes.length)
    (hm : (⟨L, p⟩ : BatchDim) ∈ bs) :
    ∃ (t : Tensor) (e : Int),
      remove_existing_batch_dim (.batched v bs) L = .ok (t, e)
      ∧ 0 ≤ e
      ∧ e < (v.sizes.length : Int) - (bs.length : Int) + 1
      ∧ (Tensor.dim t : Int) = (v.sizes.length : Int) - (bs.length : Int) + 1
      ∧ maybe_wrap_dim e (Tensor.dim t) = .ok e.toNat := by
  have hppr : p < v.sizes.length := hlt _ hm
  by_cases hk : bs.length = 1
  · obtain ⟨b, rfl⟩ := List.length_eq_one.mp hk
    have hb : (⟨L, p⟩ : BatchDim) = b := by simpa using hm
    subst hb
    refine ⟨.plain v, (p : Int), ?_, ?_, ?_, ?_, ?_⟩
    · simp [remove_existing_batch_dim, maybeGetBatched]
    · exact Int.natCast_nonneg p
    · simp only [List.length_singleton]
      push_cast
      omega
    · simp only [Tensor.dim, Tensor.sizes, List.length_singleton]
      push_cast
      omega
    · have hdim : Tensor.dim (.plain v) = v.sizes.length := rfl
      rw [hdim, maybe_wrap_dim,
        if_pos ⟨Int.natCast_nonneg p, by exact_mod_cast hppr⟩]
  · have hk0 : bs.length ≠ 0 := by
      intro h0
      rw [List.length_eq_zero] at h0
      subst h0
      cases hm
    have hk2 : 2 ≤ bs.length := by omega
    have hsc := removeScan_eq L bs
    rw [filter_level_singleton bs L p hndl hm] at hsc
    simp only [List.foldl_cons, List.foldl_nil] at hsc
    have hsub : List.Sublist (bs.filter (fun b => !(b.level == L))) bs :=
      List.filter_sublist bs
    have svndd : ((bs.filter (fun b => !(b.level == L))).map BatchDim.dim).Nodup :=
      hndd.sublist (hsub.map BatchDim.dim)
    have svlt : ∀ x ∈ (bs.filter (fun b => !(b.level == L))).map BatchDim.dim,
        x < v.sizes.length := by
      intro x hx
      obtain ⟨b, hb, rfl⟩ := List.mem_map.mp hx
      exact hlt b (List.mem_of_mem_filter hb)
    have svne : ∀ x ∈ (bs.filter (fun b => !(b.level == L))).map BatchDim.dim,
        x ≠ p := by
      intro x hx hxp
      obtain ⟨b, hb, rfl⟩ := List.mem_map.mp hx
      have hbbs := List.mem_of_mem_filter hb
      have hbne : ¬(b.level == L) = true := by
        have := (List.mem_filter.mp hb).2
        simpa using this
      have hbeq : b = ⟨L, p⟩ :=
        List.inj_on_of_nodup_map hndd hbbs hm (by simpa using hxp)
      rw [hbeq] at hbne
      simp at hbne
    have svlen := survivors_length bs L p hndl hm
    have hcle := countP_lt_le ((bs.filter (fun b => !(b.level == L))).map BatchDim.dim)
      p svndd
    have hcge := countP_ge_le ((bs.filter (fun b => !(b.level == L))).map BatchDim.dim)
      p v.sizes.length svndd svlt svne
    rw [List.countP_map] at hcle hcge
    simp only [List.length_map] at hcge
    have hcc : ((bs.filter (fun b => !(b.level == L))).countP
        ((fun x => decide (x < p)) ∘ BatchDim.dim))
        = (bs.filter (fun b => !(b.level == L))).countP (fun b => decide (b.dim < p)) := rfl
    rw [hcc] at hcle hcge
    have hne2 : (bs.filter (fun b => !(b.level == L))).isEmpty = false := by
      rw [List.isEmpty_eq_false]
      intro hcon
      rw [hcon] at svlen
      simp at svlen
      omega
    have hmk : makeBatched v (bs.filter (fun b => !(b.level == L)))
        = .batched v (bs.filter (fun b => !(b.level == L))) := by
      simp [makeBatched, hne2]
    have hdim : Tensor.dim (.batched v (bs.filter (fun b => !(b.level == L))))
        = v.sizes.length - (bs.length - 1) := by
      simp only [Tensor.dim, Tensor.sizes, List.length_map]
      rw [logicalPhysDims_length _ _ svndd]
      · rw [svlen]
      · intro b hb
        exact hlt b (List.mem_of_mem_filter hb)
    have hklepr : bs.length ≤ v.sizes.length := by
      have := length_le_card_of_nodup (bs.map BatchDim.dim) (Finset.range v.sizes.length)
        hndd ?_
      · simpa using this
      · intro x hx
        obtain ⟨b, hb, rfl⟩ := List.mem_map.mp hx
        rw [Finset.mem_range]
        exact hlt b hb
    refine ⟨makeBatched v (bs.filter (fun b => !(b.level == L))),
      (p : Int) - ((bs.filter (fun b => !(b.level == L))).countP
        (fun b => decide (b.dim < p)) : Int), ?_, ?_, ?_, ?_, ?_⟩
    · simp [remove_existing_batch_dim, maybeGetBatched, hk, hsc]
    · omega
    · omega
    · rw [hmk, hdim]
      omega
    · rw [hmk, hdim, maybe_wrap_dim, if_pos]
      constructor
      · omega
      · omega


/-- Witness for C10 at a rank-2 array moving dim 0 to dim 1. -/
theorem C10_true_permutation_witness :
    List.Perm (movedimPerm 2 0 1) (List.range 2)
    ∧ ∃ r : PlainT,
        movedim (.plain ⟨[3, 5], fun _ => 0⟩) 0 1 = .ok (.plain r)
        ∧ r.sizes.length = 2
        ∧ List.Perm r.sizes [3, 5] :=
  C10_true_permutation ⟨[3, 5], fun _ => 0⟩ 0 1 0 1 rfl rfl (by decide)

/-- Witness for C4: both concrete shape laws on shape (3,5,7,9), and the
general permutation form at src 0, dst 2. -/
theorem C4_movedim_order_witness :
    (∃ r₁ r₂ : PlainT,
      movedim (.plain ⟨[3, 5, 7, 9], fun _ => 0⟩) 0 2 = .ok (.plain r₁)
        ∧ r₁.sizes = [5, 7, 3, 9]
        ∧ movedim (.plain ⟨[3, 5, 7, 9], fun _ => 0⟩) 3 0 = .ok (.plain r₂)
        ∧ r₂.sizes = [9, 3, 5, 7])
    ∧ movedim (.plain ⟨[3, 5, 7, 9], fun _ => 0⟩) 0 2
        = .ok (.plain (permutePlain ⟨[3, 5, 7, 9], fun _ => 0⟩ (movedimPerm 4 0 2))) :=
  ⟨(C4_movedim_order ⟨[3, 5, 7, 9], fun _ => 0⟩ 3 5 7 9 0 0 0 0).1 rfl,
   (C4_movedim_order ⟨[3, 5, 7, 9], fun _ => 0⟩ 3 5 7 9 0 2 0 2).2 rfl rfl (by decide)⟩

/-- Witness for C9 at a two-tag tensor with payload rank 4. -/
theorem C9_exposed_dim_in_range_witness :
    ∃ (t : Tensor) (e : Int),
      remove_existing_batch_dim (.batched ⟨[2, 3, 5, 7], fun _ => 0⟩ [⟨0, 1⟩, ⟨1, 3⟩]) 1
        = .ok (t, e)
      ∧ 0 ≤ e ∧ e < 3 ∧ (Tensor.dim t : Int) = 3
      ∧ maybe_wrap_dim e (Tensor.dim t) = .ok e.toNat := by
  obtain ⟨t, e, h1, h2, h3, h4, h5⟩ :=
    C9_exposed_dim_in_range ⟨[2, 3, 5, 7], fun _ => 0⟩ [⟨0, 1⟩, ⟨1, 3⟩] 1 3
      (by decide) (by decide) (by decide) (by decide)
  refine ⟨t, e, h1, h2, ?_, ?_, h5⟩
  · simpa using h3
  · simpa using h4

end Batching
